import Mathlib

/-!
Shallow embedding of the Record Consolidation & Identity Resolution Engine
of the Vyro_Business_Paradox repository, together with proofs settling the
frozen claims about it.

Conventions used throughout:
* pandas dataframes are modelled as Lean lists of records (structures);
  a missing cell (NaN/None/NaT) is `Option.none`.
* pandas timestamps are modelled as integers ordered like the dates they
  encode (a date yyyy-mm-dd is written as the literal yyyymmdd).
* Python string primitives (strip, lower, `in`, `<`) are modelled on the
  underlying character lists, so every definition evaluates by kernel
  reduction on concrete inputs.
* `sort_values` is modelled as a stable insertion sort on the same key;
  pandas' default quicksort is unstable, so on rows whose whole sort key
  ties the source fixes no order either -- the stable sort realises one of
  the orders the source allows, and no theorem below depends on the order
  of full-key ties.
-/

/-- Python `str.strip` / `str.lower` whitespace test (the ASCII part, which
is all the engine's status and email values use). -/
def isSpaceChar (c : Char) : Bool := c == ' ' || c == '\t' || c == '\n' || c == '\r'

/-- Python `str.strip()` on a character list. -/
def pyStrip (l : List Char) : List Char :=
  ((l.dropWhile isSpaceChar).reverse.dropWhile isSpaceChar).reverse

/-- ASCII lower-casing of one character, as Python `str.lower()` does on the
character range the engine's values use. -/
def lowerChar (c : Char) : Char :=
  if 65 ≤ c.toNat ∧ c.toNat ≤ 90 then Char.ofNat (c.toNat + 32) else c

/-- Python `value.strip()`. -/
def stripStr (s : String) : String := ⟨pyStrip s.toList⟩

/-- Python `value.lower()`. -/
def lowerStr (s : String) : String := ⟨s.toList.map lowerChar⟩

/-- Python's substring test `pat in s`. -/
def containsSubstr (s pat : String) : Bool :=
  decide (pat.toList <:+: s.toList)

/-- Python string `<`: lexicographic comparison by code point, the order
pandas uses when sorting a column of strings. -/
def lexLt : List Char → List Char → Bool
  | [], [] => false
  | [], _ :: _ => true
  | _ :: _, [] => false
  | a :: as, b :: bs =>
    if a.toNat < b.toNat then true
    else if b.toNat < a.toNat then false
    else lexLt as bs

/-- Python string `<` on `String`. -/
def strLtB (s t : String) : Bool := lexLt s.toList t.toList

theorem lexLt_irrefl : ∀ l : List Char, lexLt l l = false
  | [] => rfl
  | a :: as => by simp [lexLt, lexLt_irrefl as]

theorem lexLt_eq_of_not (l m : List Char) (h1 : lexLt l m = false)
    (h2 : lexLt m l = false) : l = m := by
  induction l generalizing m with
  | nil => cases m with
    | nil => rfl
    | cons b bs => simp [lexLt] at h1
  | cons a as ih => cases m with
    | nil => simp [lexLt] at h2
    | cons b bs =>
      simp only [lexLt] at h1 h2
      by_cases hab : a.toNat < b.toNat
      · simp [hab] at h1
      · by_cases hba : b.toNat < a.toNat
        · simp [hab, hba] at h2
        · have hn : a.toNat = b.toNat := by omega
          have : a = b := Char.eq_of_val_eq (UInt32.toNat.inj hn)
          subst this
          simp [hab] at h1 h2
          exact congrArg (a :: ·) (ih bs h1 h2)

theorem lexLt_trans : ∀ {l m n : List Char},
    lexLt l m = true → lexLt m n = true → lexLt l n = true
  | [], _ :: _, _ :: _, _, _ => rfl
  | a :: as, b :: bs, c :: cs, h1, h2 => by
    simp only [lexLt] at h1 h2 ⊢
    by_cases hab : a.toNat < b.toNat
    · by_cases hbc : b.toNat < c.toNat
      · have : a.toNat < c.toNat := by omega
        simp [this]
      · by_cases hcb : c.toNat < b.toNat
        · simp [hbc, hcb] at h2
        · have : b.toNat = c.toNat := by omega
          have hac : a.toNat < c.toNat := by omega
          simp [hac]
    · by_cases hba : b.toNat < a.toNat
      · simp [hab, hba] at h1
      · have hae : a.toNat = b.toNat := by omega
        by_cases hbc : b.toNat < c.toNat
        · have hac : a.toNat < c.toNat := by omega
          simp [hac]
        · by_cases hcb : c.toNat < b.toNat
          · simp [hbc, hcb] at h2
          · have hac1 : ¬ a.toNat < c.toNat := by omega
            have hac2 : ¬ c.toNat < a.toNat := by omega
            rw [if_neg hab, if_neg hba] at h1
            rw [if_neg hbc, if_neg hcb] at h2
            rw [if_neg hac1, if_neg hac2]
            exact lexLt_trans h1 h2

theorem lexLt_asymm {l m : List Char} (h : lexLt l m = true) : lexLt m l = false := by
  cases hm : lexLt m l with
  | false => rfl
  | true =>
    have := lexLt_trans h hm
    rw [lexLt_irrefl] at this
    cases this

theorem strLt_irrefl (s : String) : strLtB s s = false := lexLt_irrefl _

theorem strLt_asymm {s t : String} (h : strLtB s t = true) : strLtB t s = false :=
  lexLt_asymm h

theorem strLt_trans {s t u : String} (h1 : strLtB s t = true) (h2 : strLtB t u = true) :
    strLtB s u = true := lexLt_trans h1 h2

theorem strLt_eq_of_not {s t : String} (h1 : strLtB s t = false) (h2 : strLtB t s = false) :
    s = t := by
  have hd := lexLt_eq_of_not s.toList t.toList h1 h2
  cases s; cases t
  simp only [String.toList] at hd
  exact congrArg String.mk hd

namespace SyncDir

/-- STATUS_MAP of sync_employee_directory_csv.py (lines 49-57): the synonym
table of the Status Canonicalizer. -/
def STATUS_MAP : List (String × String) :=
  [("active", "Active"),
   ("current", "Active"),
   ("inactive", "Resigned/Terminated"),
   ("terminated", "Resigned/Terminated"),
   ("resigned", "Resigned/Terminated"),
   ("former", "Resigned/Terminated"),
   ("exit", "Resigned/Terminated")]

/-- Dictionary lookup `STATUS_MAP.get(key, default)` without its default:
the value of the first (only) pair whose key matches. -/
def statusLookup (key : String) : Option String :=
  (STATUS_MAP.find? (fun p => p.1 == key)).map Prod.snd

/-- normalise_status of sync_employee_directory_csv.py (lines 77-81).
The input is the raw status cell: `none` models a missing value (None/NaN),
`some s` a string cell.  Python's `not value or str(value).strip() == ""`
is: the value is `none`, the empty string, or a string whose strip is
empty (the empty string's strip is itself empty, so one test covers both). -/
def normalise_status (value : Option String) : String :=
  match value with
  | none => "Active"
  | some s =>
    if stripStr s = "" then "Active"
    else
      let key := lowerStr (stripStr s)
      match statusLookup key with
      | some canonical => canonical
      | none => if containsSubstr key "active" then "Active" else "Resigned/Terminated"

theorem statusLookup_mem (k v : String) (h : statusLookup k = some v) :
    v = "Active" ∨ v = "Resigned/Terminated" := by
  unfold statusLookup at h
  rcases hf : STATUS_MAP.find? (fun p => p.1 == k) with _ | p
  · rw [hf] at h; simp at h
  · rw [hf] at h
    simp only [Option.map_some'] at h
    have hp := List.mem_of_find?_eq_some hf
    have hv : v = p.2 := (Option.some.inj h).symm
    subst hv
    simp only [STATUS_MAP, List.mem_cons, List.not_mem_nil, or_false] at hp
    rcases hp with rfl | rfl | rfl | rfl | rfl | rfl | rfl
    all_goals simp

/-- C9: the Status Canonicalizer is total over strings: for every input,
including a missing value, the empty string and unrecognized text, it
returns exactly one of the two canonical states, never a third value. -/
theorem normalise_status_total (value : Option String) :
    normalise_status value = "Active" ∨ normalise_status value = "Resigned/Terminated" := by
  match value with
  | none => exact Or.inl rfl
  | some s =>
    unfold normalise_status
    by_cases hb : stripStr s = ""
    · simp [hb]
    · simp only [hb, if_false, if_neg hb]
      rcases hl : statusLookup (lowerStr (stripStr s)) with _ | c
      · by_cases hc : containsSubstr (lowerStr (stripStr s)) "active"
        · simp [hc]
        · simp [hc]
      · simpa using statusLookup_mem _ c hl

/-- C10: for a non-blank status whose trimmed, lowercased form is not a key
of the synonym table, normalise_status returns Active exactly when that
lowercased text contains the substring "active", and Resigned/Terminated
in every other case. -/
theorem normalise_status_unrecognised (s : String)
    (h1 : stripStr s ≠ "") (h2 : statusLookup (lowerStr (stripStr s)) = none) :
    (normalise_status (some s) = "Active"
        ↔ containsSubstr (lowerStr (stripStr s)) "active" = true)
    ∧ (containsSubstr (lowerStr (stripStr s)) "active" = false
        → normalise_status (some s) = "Resigned/Terminated") := by
  unfold normalise_status
  simp only [if_neg h1, h2]
  by_cases hc : containsSubstr (lowerStr (stripStr s)) "active"
  · simp [hc]
  · simp [hc]

/-- Instantiation of normalise_status_unrecognised at the concrete status
text "on leave", which is non-blank and matches no synonym. -/
theorem normalise_status_unrecognised_witness :
    (normalise_status (some "on leave") = "Active"
        ↔ containsSubstr (lowerStr (stripStr "on leave")) "active" = true)
    ∧ (containsSubstr (lowerStr (stripStr "on leave")) "active" = false
        → normalise_status (some "on leave") = "Resigned/Terminated") :=
  normalise_status_unrecognised "on leave" (by decide) (by decide)

/-- C4 counterexample: the status text "unknown" is non-blank, matches no
known synonym, and its source (the single employee-directory CSV) is no
dedicated resigned sheet, yet normalise_status returns
Resigned/Terminated, not the claimed default Active. -/
theorem normalise_status_unknown_not_active :
    statusLookup (lowerStr (stripStr "unknown")) = none
    ∧ normalise_status (some "unknown") = "Resigned/Terminated"
    ∧ normalise_status (some "unknown") ≠ "Active" := by
  refine ⟨by decide, by decide, by decide⟩

/-- C4 amended: a blank (missing, empty or whitespace-only) status value
defaults to Active; a non-blank value matching no known synonym maps to
Active exactly when its lowercased text contains "active", and to
Resigned/Terminated otherwise. -/
theorem normalise_status_fallback_rule (value : Option String) :
    (value = none → normalise_status value = "Active")
    ∧ (∀ s, value = some s → stripStr s = "" → normalise_status value = "Active")
    ∧ (∀ s, value = some s → stripStr s ≠ ""
        → statusLookup (lowerStr (stripStr s)) = none
        → normalise_status value
            = if containsSubstr (lowerStr (stripStr s)) "active"
              then "Active" else "Resigned/Terminated") := by
  refine ⟨fun hv => by simp [hv, normalise_status], fun s hv hb => ?_, fun s hv hb hl => ?_⟩
  · subst hv; simp [normalise_status, hb]
  · subst hv
    unfold normalise_status
    simp only [if_neg hb, hl]

/-- One row of the dataframe as build_history consumes it: the identity key
`Employee_ID` (always a non-empty string after load_csv), the parsed
`Joining Date` (`none` models NaT, i.e. a missing or unparseable date) and
the canonical `Employment_Status`.  The other columns play no part in
build_history's logic. -/
structure HistRow where
  employeeId : String
  joinDate : Option Int
  status : String
deriving DecidableEq

/-- The `pd.Timestamp("1900-01-01")` sentinel that build_history fills
missing join dates with (line 195), in the yyyymmdd date encoding. -/
def sentinel1900 : Int := 19000101

/-- The `_join_order` column: the parsed joining date with NaT replaced by
the 1900-01-01 sentinel (lines 194-195). -/
def joinOrder (r : HistRow) : Int := r.joinDate.getD sentinel1900

/-- The sort key of `history.sort_values(["Employee_ID", "_join_order",
"Employment_Status"])` (line 196): lexicographic on the triple, with
strings compared the way pandas compares a column of Python strings. -/
def histLeB (a b : HistRow) : Bool :=
  if strLtB a.employeeId b.employeeId then true
  else if strLtB b.employeeId a.employeeId then false
  else if joinOrder a < joinOrder b then true
  else if joinOrder b < joinOrder a then false
  else if strLtB a.status b.status then true
  else if strLtB b.status a.status then false
  else true

def histLe (a b : HistRow) : Prop := histLeB a b = true

instance : DecidableRel histLe := fun a b => inferInstanceAs (Decidable (_ = true))

theorem histLeB_iff (a b : HistRow) : histLeB a b = true ↔
    strLtB a.employeeId b.employeeId = true
    ∨ (a.employeeId = b.employeeId
        ∧ (joinOrder a < joinOrder b
          ∨ (joinOrder a = joinOrder b
            ∧ (strLtB a.status b.status = true ∨ a.status = b.status)))) := by
  unfold histLeB
  split_ifs with h1 h2 h3 h4 h5 h6
  · simp [h1]
  · constructor
    · intro h; exact h.elim
    · rintro (h | ⟨heq, _⟩)
      · exact absurd h h1
      · rw [← heq, strLt_irrefl] at h2; exact Bool.noConfusion h2
  · have heq := strLt_eq_of_not (by simpa using h1) (by simpa using h2)
    simp [heq, h3]
  · constructor
    · intro h; exact h.elim
    · rintro (h | ⟨heq, hd | ⟨hde, _⟩⟩)
      · exact absurd h h1
      · exact absurd hd h3
      · omega
  · have heq := strLt_eq_of_not (by simpa using h1) (by simpa using h2)
    have hde : joinOrder a = joinOrder b := by omega
    simp [heq, hde, h5]
  · constructor
    · intro h; exact h.elim
    · rintro (h | ⟨heq, hd | ⟨hde, hs | hse⟩⟩)
      · exact absurd h h1
      · exact absurd hd h3
      · exact absurd hs h5
      · rw [← hse, strLt_irrefl] at h6; exact Bool.noConfusion h6
  · have heq := strLt_eq_of_not (by simpa using h1) (by simpa using h2)
    have hde : joinOrder a = joinOrder b := by omega
    have hse := strLt_eq_of_not (by simpa using h5) (by simpa using h6)
    simp [heq, hde, hse]

theorem histLe_total (a b : HistRow) : histLe a b ∨ histLe b a := by
  unfold histLe
  rw [histLeB_iff, histLeB_iff]
  by_cases h1 : strLtB a.employeeId b.employeeId = true
  · exact Or.inl (Or.inl h1)
  · by_cases h2 : strLtB b.employeeId a.employeeId = true
    · exact Or.inr (Or.inl h2)
    · have heq := strLt_eq_of_not (by simpa using h1) (by simpa using h2)
      by_cases hd : joinOrder a < joinOrder b
      · exact Or.inl (Or.inr ⟨heq, Or.inl hd⟩)
      · by_cases hd' : joinOrder b < joinOrder a
        · exact Or.inr (Or.inr ⟨heq.symm, Or.inl hd'⟩)
        · by_cases h3 : strLtB a.status b.status = true
          · exact Or.inl (Or.inr ⟨heq, Or.inr ⟨by omega, Or.inl h3⟩⟩)
          · by_cases h4 : strLtB b.status a.status = true
            · exact Or.inr (Or.inr ⟨heq.symm, Or.inr ⟨by omega, Or.inl h4⟩⟩)
            · exact Or.inl (Or.inr ⟨heq, Or.inr ⟨by omega,
                Or.inr (strLt_eq_of_not (by simpa using h3) (by simpa using h4))⟩⟩)

theorem histLe_trans {a b c : HistRow} (h1 : histLe a b) (h2 : histLe b c) :
    histLe a c := by
  unfold histLe at h1 h2 ⊢
  rw [histLeB_iff] at h1 h2 ⊢
  rcases h1 with hab | ⟨hab, hd1⟩
  · rcases h2 with hbc | ⟨hbc, _⟩
    · exact Or.inl (strLt_trans hab hbc)
    · exact Or.inl (hbc ▸ hab)
  · rcases h2 with hbc | ⟨hbc, hd2⟩
    · exact Or.inl (hab ▸ hbc)
    · refine Or.inr ⟨hab.trans hbc, ?_⟩
      rcases hd1 with hd1 | ⟨hde1, hs1⟩
      · rcases hd2 with hd2 | ⟨hde2, _⟩
        · exact Or.inl (hd1.trans hd2)
        · exact Or.inl (hde2 ▸ hd1)
      · rcases hd2 with hd2 | ⟨hde2, hs2⟩
        · exact Or.inl (hde1 ▸ hd2)
        · refine Or.inr ⟨hde1.trans hde2, ?_⟩
          rcases hs1 with hs1 | hs1
          · rcases hs2 with hs2 | hs2
            · exact Or.inl (strLt_trans hs1 hs2)
            · exact Or.inl (hs2 ▸ hs1)
          · rcases hs2 with hs2 | hs2
            · exact Or.inl (hs1 ▸ hs2)
            · exact Or.inr (hs1.trans hs2)

instance : IsTotal HistRow histLe := ⟨histLe_total⟩

instance : IsTrans HistRow histLe := ⟨fun _ _ _ => histLe_trans⟩

/-- The `history.sort_values(["Employee_ID", "_join_order",
"Employment_Status"])` step of build_history (line 196), modelled as a
stable sort on the same key. -/
def sortHist (rows : List HistRow) : List HistRow := rows.insertionSort histLe

/-- The `groupby("Employee_ID").cumcount() + 1` step of build_history
(line 197): each row receives one more than the number of earlier rows in
the frame carrying the same Employee_ID.  `cnt` carries those counts. -/
def assignSeq : List HistRow → (String → Nat) → List (HistRow × Nat)
  | [], _ => []
  | r :: rs, cnt =>
    (r, cnt r.employeeId + 1) ::
      assignSeq rs (fun e => if e = r.employeeId then cnt e + 1 else cnt e)

/-- The `groupby("Employee_ID")["Rejoin_Sequence"].transform("max")` step
of build_history (line 198): the greatest sequence number among the rows
sharing one Employee_ID. -/
def latestSeq (l : List (HistRow × Nat)) (e : String) : Nat :=
  ((l.filter (fun p => p.1.employeeId == e)).map Prod.snd).foldr max 0

/-- One row of the produced full-history table: the original row plus its
Rejoin_Sequence and Is_Current flags. -/
structure OutRow where
  row : HistRow
  seq : Nat
  isCurrent : Bool
deriving DecidableEq

/-- build_history of sync_employee_directory_csv.py (lines 191-202): sort
by (Employee_ID, join order, status), assign Rejoin_Sequence by
per-employee cumulative count, and flag Is_Current on the rows whose
sequence equals their group's maximum. -/
def build_history (rows : List HistRow) : List OutRow :=
  (assignSeq (sortHist rows) (fun _ => 0)).map
    (fun p => ⟨p.1, p.2,
      p.2 == latestSeq (assignSeq (sortHist rows) (fun _ => 0)) p.1.employeeId⟩)

theorem assignSeq_map_fst : ∀ (l : List HistRow) (cnt : String → Nat),
    (assignSeq l cnt).map Prod.fst = l
  | [], _ => rfl
  | r :: rs, cnt => by simp [assignSeq, assignSeq_map_fst rs]

/-- The sequence numbers that the cumulative count hands to the rows of one
employee are consecutive: continuing from `cnt e`, the rows of `e` receive
`cnt e + 1, cnt e + 2, ...` in frame order. -/
theorem assignSeq_filter_map_snd (e : String) : ∀ (l : List HistRow) (cnt : String → Nat),
    ((assignSeq l cnt).filter (fun p => p.1.employeeId == e)).map Prod.snd
      = List.range' (cnt e + 1) (l.countP (fun r => r.employeeId == e)) := by
  intro l
  induction l with
  | nil => intro cnt; rfl
  | cons r rs ih =>
    intro cnt
    by_cases h : r.employeeId = e
    · subst h
      simp only [assignSeq, List.filter_cons, beq_self_eq_true, if_true, List.map_cons,
        List.countP_cons, Bool.and_true]
      rw [ih]
      rw [List.range'_succ _ _ 1]
      simp
    · have hb : (r.employeeId == e) = false := beq_eq_false_iff_ne.mpr h
      simp only [assignSeq, List.filter_cons, hb, Bool.false_eq_true, if_false,
        List.countP_cons, cond_false]
      rw [ih]
      simp [Ne.symm h]

theorem assignSeq_filter_map_fst (e : String) : ∀ (l : List HistRow) (cnt : String → Nat),
    ((assignSeq l cnt).filter (fun p => p.1.employeeId == e)).map Prod.fst
      = l.filter (fun r => r.employeeId == e) := by
  intro l
  induction l with
  | nil => intro cnt; rfl
  | cons r rs ih =>
    intro cnt
    by_cases h : r.employeeId = e
    · subst h
      simp only [assignSeq, List.filter_cons, beq_self_eq_true, if_true, List.map_cons]
      rw [ih]
    · have hb : (r.employeeId == e) = false := beq_eq_false_iff_ne.mpr h
      simp only [assignSeq, List.filter_cons, hb, Bool.false_eq_true, if_false]
      rw [ih]

theorem foldr_max_range' : ∀ (n s : Nat),
    (List.range' s n).foldr max 0 = if n = 0 then 0 else s + n - 1 := by
  intro n
  induction n with
  | zero => intro s; rfl
  | succ k ih =>
    intro s
    rw [List.range'_succ _ _ 1]
    simp only [List.foldr_cons]
    rw [ih (s + 1)]
    by_cases hk : k = 0
    · subst hk; simp
    · rw [if_neg hk, if_neg (Nat.succ_ne_zero k)]
      have h1 : s + 1 + k - 1 = s + k := by omega
      have h2 : s + (k + 1) - 1 = s + k := by omega
      rw [h1, h2]
      exact Nat.max_eq_right (by omega)

/-- The greatest sequence number a cluster receives is the cluster's size. -/
theorem latestSeq_assignSeq (l : List HistRow) (e : String) :
    latestSeq (assignSeq l (fun _ => 0)) e = l.countP (fun r => r.employeeId == e) := by
  unfold latestSeq
  rw [assignSeq_filter_map_snd, foldr_max_range']
  split_ifs with h <;> omega

/-- C1: for every consolidation run and every identity cluster (the rows
sharing one Employee_ID), the full-history table build_history produces
contains exactly one row of that cluster with Is_Current = true, and every
other row of the cluster carries Is_Current = false (the count of
current rows in the cluster is one when the cluster is inhabited, zero
when no row carries that Employee_ID). -/
theorem build_history_unique_current (rows : List HistRow) (e : String) :
    (build_history rows).countP (fun o => o.row.employeeId == e && o.isCurrent)
      = if rows.countP (fun r => r.employeeId == e) = 0 then 0 else 1 := by
  have hperm : (sortHist rows).countP (fun r => r.employeeId == e)
      = rows.countP (fun r => r.employeeId == e) :=
    (List.perm_insertionSort histLe rows).countP_eq _
  unfold build_history
  rw [List.countP_map]
  have hstep1 : List.countP
      ((fun o : OutRow => o.row.employeeId == e && o.isCurrent) ∘
        (fun p : HistRow × Nat => OutRow.mk p.1 p.2
          (p.2 == latestSeq (assignSeq (sortHist rows) (fun _ => 0)) p.1.employeeId)))
      (assignSeq (sortHist rows) (fun _ => 0))
      = List.countP
        (fun p : HistRow × Nat =>
          (p.2 == latestSeq (assignSeq (sortHist rows) (fun _ => 0)) p.1.employeeId)
            && (p.1.employeeId == e))
        (assignSeq (sortHist rows) (fun _ => 0)) := by
    refine List.countP_congr fun p _ => ?_
    simp [Function.comp, Bool.and_comm]
  rw [hstep1, ← List.countP_filter]
  have hstep2 : List.countP
      (fun p : HistRow × Nat =>
        p.2 == latestSeq (assignSeq (sortHist rows) (fun _ => 0)) p.1.employeeId)
      ((assignSeq (sortHist rows) (fun _ => 0)).filter (fun p => p.1.employeeId == e))
      = List.countP
        (fun p : HistRow × Nat => p.2 == rows.countP (fun r => r.employeeId == e))
        ((assignSeq (sortHist rows) (fun _ => 0)).filter (fun p => p.1.employeeId == e)) := by
    refine List.countP_congr fun p hp => ?_
    have hpe : p.1.employeeId = e := by
      have := (List.mem_filter.mp hp).2
      exact beq_iff_eq.mp this
    rw [hpe, latestSeq_assignSeq, hperm]
  rw [hstep2]
  have hstep3 : List.countP
      (fun p : HistRow × Nat => p.2 == rows.countP (fun r => r.employeeId == e))
      ((assignSeq (sortHist rows) (fun _ => 0)).filter (fun p => p.1.employeeId == e))
      = List.countP (fun n => n == rows.countP (fun r => r.employeeId == e))
        (((assignSeq (sortHist rows) (fun _ => 0)).filter
            (fun p => p.1.employeeId == e)).map Prod.snd) := by
    rw [List.countP_map]
    rfl
  rw [hstep3, assignSeq_filter_map_snd, hperm]
  by_cases h : rows.countP (fun r => r.employeeId == e) = 0
  · simp [h]
  · rw [if_neg h]
    have hcount : List.countP (fun n => n == rows.countP (fun r => r.employeeId == e))
        (List.range' (0 + 1) (rows.countP (fun r => r.employeeId == e)))
        = List.count (rows.countP (fun r => r.employeeId == e))
          (List.range' (0 + 1) (rows.countP (fun r => r.employeeId == e))) := rfl
    rw [hcount]
    refine List.count_eq_one_of_mem (List.nodup_range' _ _ 1 (by omega)) ?_
    rw [List.mem_range'_1]
    omega

/-- C3 counterexample: two records of one employee share the joining date
2022-01-01, one Active and one Resigned/Terminated.  The tie is broken by
the plain string sort of the Employment_Status column, which puts "Active"
before "Resigned/Terminated", so the Resigned/Terminated record receives
the higher Rejoin_Sequence and the Is_Current flag: the Resigned record
shadows the Active one, against the claimed explicit tie rule. -/
theorem same_date_tie_resigned_shadows_active :
    (build_history [⟨"E1", some 20220101, "Active"⟩,
        ⟨"E1", some 20220101, "Resigned/Terminated"⟩]).map
        (fun o => (o.row.status, o.seq, o.isCurrent))
      = [("Active", 1, false), ("Resigned/Terminated", 2, true)] := by decide

/-- C3 amended: build_history sorts each identity cluster by normalized
effective date (joining date, 1900-01-01 sentinel when missing) ascending,
breaking same-date ties by the default string sort of the canonical status
(so "Active" sorts before "Resigned/Terminated" and a same-date
Resigned/Terminated record takes the Is_Current flag); it assigns
Rejoin_Sequence = 1, 2, 3, ... in that order and flags Is_Current exactly
on the row whose sequence equals the cluster size; for the employee with
snapshots 2022-01-01 Active, 2023-06-01 Resigned/Terminated, 2024-02-01
Active, the sequences are 1, 2, 3 in date order with Is_Current only on
sequence 3. -/
theorem build_history_cluster_timeline (rows : List HistRow) (e : String) :
    List.Pairwise (fun o o' : OutRow => histLe o.row o'.row)
      ((build_history rows).filter (fun o => o.row.employeeId == e))
    ∧ ((build_history rows).filter (fun o => o.row.employeeId == e)).map OutRow.seq
        = List.range' 1 (rows.countP (fun r => r.employeeId == e))
    ∧ (∀ o ∈ build_history rows,
        o.isCurrent = (o.seq == rows.countP (fun r => r.employeeId == o.row.employeeId)))
    ∧ (build_history [⟨"E7", some 20230601, "Resigned/Terminated"⟩,
          ⟨"E7", some 20240201, "Active"⟩, ⟨"E7", some 20220101, "Active"⟩]).map
          (fun o => (o.row.joinDate, o.seq, o.isCurrent))
        = [(some 20220101, 1, false), (some 20230601, 2, false),
           (some 20240201, 3, true)] := by
  have hperm : ∀ e' : String, (sortHist rows).countP (fun r => r.employeeId == e')
      = rows.countP (fun r => r.employeeId == e') :=
    fun e' => (List.perm_insertionSort histLe rows).countP_eq _
  have hsorted : List.Pairwise histLe (sortHist rows) :=
    List.sorted_insertionSort histLe rows
  have hfil : (build_history rows).filter (fun o => o.row.employeeId == e)
      = ((assignSeq (sortHist rows) (fun _ => 0)).filter
          (fun p => p.1.employeeId == e)).map
        (fun p => OutRow.mk p.1 p.2
          (p.2 == latestSeq (assignSeq (sortHist rows) (fun _ => 0)) p.1.employeeId)) := by
    unfold build_history
    rw [List.filter_map]
    rfl
  refine ⟨?_, ?_, ?_, by decide⟩
  · rw [hfil, List.pairwise_map]
    have hp0 : List.Pairwise (fun p q : HistRow × Nat => histLe p.1 q.1)
        (assignSeq (sortHist rows) (fun _ => 0)) := by
      have := hsorted
      rw [← assignSeq_map_fst (sortHist rows) (fun _ => 0)] at this
      exact List.pairwise_map.mp this
    exact hp0.filter _
  · rw [hfil, List.map_map]
    have : (OutRow.seq ∘ fun p : HistRow × Nat => OutRow.mk p.1 p.2
        (p.2 == latestSeq (assignSeq (sortHist rows) (fun _ => 0)) p.1.employeeId))
        = Prod.snd := rfl
    rw [this, assignSeq_filter_map_snd, hperm]
  · intro o ho
    unfold build_history at ho
    rcases List.mem_map.mp ho with ⟨p, _, rfl⟩
    show (p.2 == latestSeq (assignSeq (sortHist rows) (fun _ => 0)) p.1.employeeId) = _
    rw [latestSeq_assignSeq, hperm]

/-- clean_employee_id of sync_employee_directory_csv.py (lines 84-92):
NaN becomes the empty string, the text is stripped, and one trailing
float artifact ".0" is removed. -/
def clean_employee_id (v : Option String) : String :=
  match v with
  | none => ""
  | some s =>
    let t := pyStrip s.toList
    if t = [] then ""
    else if endsDot0 t then ⟨t.dropLast.dropLast⟩
    else ⟨t⟩
where
  /-- Python `text.endswith(".0")`. -/
  endsDot0 (l : List Char) : Bool :=
    match l.reverse with
    | '0' :: '.' :: _ => true
    | _ => false

/-- The digits of n, least significant first, by repeated division; the
fuel argument makes the recursion structural and `fuel = n` is enough. -/
def decDigitsAux : Nat → Nat → List Nat
  | 0, _ => []
  | fuel + 1, n => if n = 0 then [] else (n % 10) :: decDigitsAux fuel (n / 10)

def decDigits (n : Nat) : List Nat := decDigitsAux n n

def digitCh (d : Nat) : Char := Char.ofNat (48 + d)

/-- Python's decimal rendering of a natural number. -/
def decRepr (n : Nat) : List Char :=
  if n = 0 then ['0'] else ((decDigits n).map digitCh).reverse

/-- Python's format specifier 04d: the decimal rendering left-padded with
zeros to at least four characters. -/
def pad4 (n : Nat) : String := ⟨List.replicate (4 - (decRepr n).length) '0' ++ decRepr n⟩

/-- The temporary identifier of load_csv (line 165) for the row at
zero-based position i. -/
def tempId (i : Nat) : String := "TEMP-" ++ pad4 (i + 1)

/-- The Employee_ID assignment of load_csv (lines 161-167): the cleaned
raw ID when it is non-empty, otherwise the TEMP identifier built from the
row's index. -/
def assignIdsAux : List (Option String) → Nat → List String
  | [], _ => []
  | v :: vs, i =>
    (if clean_employee_id v = "" then tempId i else clean_employee_id v)
      :: assignIdsAux vs (i + 1)

def assignIds (rawIds : List (Option String)) : List String := assignIdsAux rawIds 0

def readDigit (c : Char) : Nat := c.toNat - 48

/-- Reads a most-significant-first digit string back into the number; the
left inverse showing the decimal rendering is injective. -/
def readNat (cs : List Char) : Nat := cs.foldl (fun a c => 10 * a + readDigit c) 0

def valLSB (ds : List Nat) : Nat := ds.foldr (fun d a => d + 10 * a) 0

theorem decDigitsAux_bound : ∀ (fuel n : Nat), ∀ d ∈ decDigitsAux fuel n, d < 10 := by
  intro fuel
  induction fuel with
  | zero => intro n d hd; simp [decDigitsAux] at hd
  | succ f ih =>
    intro n d hd
    by_cases hn : n = 0
    · simp [decDigitsAux, hn] at hd
    · simp only [decDigitsAux, if_neg hn, List.mem_cons] at hd
      rcases hd with rfl | hd
      · omega
      · exact ih _ _ hd

theorem valLSB_decDigitsAux : ∀ (fuel n : Nat), n ≤ fuel →
    valLSB (decDigitsAux fuel n) = n := by
  intro fuel
  induction fuel with
  | zero => intro n h; interval_cases n; rfl
  | succ f ih =>
    intro n h
    by_cases hn : n = 0
    · subst hn; rfl
    · simp only [decDigitsAux, if_neg hn, valLSB, List.foldr_cons]
      have hdiv : n / 10 ≤ f := by
        have : n / 10 < n := Nat.div_lt_self (by omega) (by omega)
        omega
      have hv := ih (n / 10) hdiv
      unfold valLSB at hv
      rw [hv]
      omega

theorem readNat_reverse_digits : ∀ (ds : List Nat) (acc : Nat), (∀ d ∈ ds, d < 10) →
    List.foldl (fun a c => 10 * a + readDigit c) acc ((ds.map digitCh).reverse)
      = acc * 10 ^ ds.length + valLSB ds := by
  intro ds
  induction ds with
  | nil => intro acc _; simp [valLSB]
  | cons d rest ih =>
    intro acc h
    simp only [List.map_cons, List.reverse_cons]
    rw [List.foldl_append]
    rw [ih acc (fun d' hd' => h d' (List.mem_cons_of_mem _ hd'))]
    simp only [List.foldl_cons, List.foldl_nil]
    have hd : readDigit (digitCh d) = d := by
      have hlt : d < 10 := h d (List.mem_cons_self _ _)
      unfold readDigit digitCh
      interval_cases d <;> decide
    rw [hd]
    show 10 * (acc * 10 ^ rest.length + valLSB rest) + d
        = acc * 10 ^ (d :: rest).length + valLSB (d :: rest)
    simp only [valLSB, List.foldr_cons, List.length_cons]
    ring

theorem readNat_pad4 (n : Nat) : readNat (pad4 n).toList = n := by
  unfold pad4 readNat
  show List.foldl _ 0 (List.replicate (4 - (decRepr n).length) '0' ++ decRepr n) = n
  rw [List.foldl_append]
  have hzeros : ∀ k, List.foldl (fun a c => 10 * a + readDigit c) 0 (List.replicate k '0') = 0 := by
    intro k
    induction k with
    | zero => rfl
    | succ k ihk =>
      rw [List.replicate_succ, List.foldl_cons]
      have : (10 * 0 + readDigit '0') = 0 := rfl
      rw [this, ihk]
  rw [hzeros]
  unfold decRepr decDigits
  by_cases hn : n = 0
  · subst hn; rfl
  · rw [if_neg hn]
    rw [readNat_reverse_digits _ 0 (decDigitsAux_bound n n)]
    rw [valLSB_decDigitsAux n n le_rfl]
    simp

theorem tempId_inj {m n : Nat} (h : tempId m = tempId n) : m = n := by
  unfold tempId at h
  have hdata : ("TEMP-" ++ pad4 (m + 1)).toList = ("TEMP-" ++ pad4 (n + 1)).toList :=
    congrArg String.toList h
  have happ : ∀ s t : String, (s ++ t).toList = s.toList ++ t.toList := by
    intro s t; cases s; cases t; rfl
  rw [happ, happ] at hdata
  have hcancel := List.append_cancel_left hdata
  have hm : readNat (pad4 (m + 1)).toList = readNat (pad4 (n + 1)).toList :=
    congrArg readNat hcancel
  rw [readNat_pad4, readNat_pad4] at hm
  omega

theorem assignIdsAux_getD : ∀ (l : List (Option String)) (k i : Nat), i < l.length →
    (assignIdsAux l k).getD i "" =
      if clean_employee_id (l.getD i none) = "" then tempId (k + i)
      else clean_employee_id (l.getD i none) := by
  intro l
  induction l with
  | nil => intro k i h; simp at h
  | cons v vs ih =>
    intro k i h
    cases i with
    | zero => simp [assignIdsAux]
    | succ j =>
      have hj : j < vs.length := by simpa using h
      have := ih (k + 1) j hj
      simp only [assignIdsAux, List.getD_cons_succ]
      rw [this]
      have : k + 1 + j = k + (j + 1) := by omega
      rw [this]

/-- C6 counterexample: a record whose raw identifier cell holds "42.0" (the
way pandas renders an integer identifier read as a float) ends up with
Employee_ID "42": the identifier already present on the record is not
preserved verbatim, it is stripped of whitespace and of a trailing ".0". -/
theorem present_id_not_verbatim :
    assignIds [some "42.0"] = ["42"]
    ∧ assignIds [some "42.0"] ≠ [("42.0" : String)] := by
  exact ⟨by decide, by decide⟩

/-- C6 amended: a record with a non-empty cleaned identifier (whitespace
trimmed, one trailing ".0" artifact removed -- not verbatim) keeps exactly
that cleaned identifier and is never regenerated; a record whose cleaned
identifier is empty receives the synthesized temporary identifier of its
row position, which carries the reserved prefix TEMP- and is deterministic
and unique per missing-ID row. -/
theorem assignIds_spec (rawIds : List (Option String)) (i : Nat) (h : i < rawIds.length) :
    (clean_employee_id (rawIds.getD i none) ≠ "" →
      (assignIds rawIds).getD i "" = clean_employee_id (rawIds.getD i none))
    ∧ (clean_employee_id (rawIds.getD i none) = "" →
      (assignIds rawIds).getD i "" = tempId i
      ∧ (∃ rest, (assignIds rawIds).getD i "" = "TEMP-" ++ rest)
      ∧ (∀ j, j < rawIds.length → j ≠ i →
          clean_employee_id (rawIds.getD j none) = "" →
          (assignIds rawIds).getD j "" ≠ (assignIds rawIds).getD i "")) := by
  have hgetD := assignIdsAux_getD rawIds 0 i h
  rw [Nat.zero_add] at hgetD
  constructor
  · intro hne
    rw [assignIds, hgetD, if_neg hne]
  · intro heq
    refine ⟨by rw [assignIds, hgetD, if_pos heq], ?_, ?_⟩
    · refine ⟨pad4 (i + 1), ?_⟩
      rw [assignIds, hgetD, if_pos heq]
      rfl
    · intro j hj hne heqj
      have hgetDj := assignIdsAux_getD rawIds 0 j hj
      rw [Nat.zero_add] at hgetDj
      rw [assignIds, hgetD, hgetDj, if_pos heq, if_pos heqj]
      intro hcontra
      exact hne (tempId_inj hcontra)

/-- Instantiation of assignIds_spec at a concrete two-row input whose
second row has no identifier: that row receives TEMP-0002. -/
theorem assignIds_spec_witness :
    (clean_employee_id ([some "E9", none].getD 1 none) ≠ "" →
      (assignIds [some "E9", none]).getD 1 "" = clean_employee_id ([some "E9", none].getD 1 none))
    ∧ (clean_employee_id ([some "E9", none].getD 1 none) = "" →
      (assignIds [some "E9", none]).getD 1 "" = tempId 1
      ∧ (∃ rest, (assignIds [some "E9", none]).getD 1 "" = "TEMP-" ++ rest)
      ∧ (∀ j, j < [some "E9", none].length → j ≠ 1 →
          clean_employee_id ([some "E9", none].getD j none) = "" →
          (assignIds [some "E9", none]).getD j "" ≠ (assignIds [some "E9", none]).getD 1 "")) :=
  assignIds_spec [some "E9", none] 1 (by decide)

end SyncDir

namespace ConsV2

/-- One combined-dataframe row as the deduplication pass of
consolidate_employee_data_v2.py consumes it.  The canonical columns the
pass inspects are explicit; every remaining column of the row is carried
in `otherFields` (its cells reduced to present-or-missing, which is all
`notna` reads of them).  `sourceSheet` is the Source_Sheet tag every
loaded row carries, never missing. -/
structure EmpRow where
  officialEmail : Option String
  department : Option String
  employmentStatus : Option String
  sourceSheet : String
  otherFields : List (Option String)
deriving DecidableEq

/-- clean_email of consolidate_employee_data_v2.py (lines 234-243). -/
def cleanEmail (v : Option String) : Option String :=
  match v with
  | none => none
  | some s =>
    let t := lowerStr (stripStr s)
    if t = "nan" ∨ t = "none" ∨ t = "" ∨ t = "n/a" then none
    else if containsSubstr t "@" then some t
    else none

/-- The `_completeness` column (line 264): `df.notna().sum(axis=1)`, the
number of non-null cells of the row (Source_Sheet is always present). -/
def completeness (r : EmpRow) : Nat :=
  (if r.officialEmail.isSome then 1 else 0)
  + (if r.department.isSome then 1 else 0)
  + (if r.employmentStatus.isSome then 1 else 0)
  + 1
  + r.otherFields.countP Option.isSome

/-- The row with its Official_Email column rewritten through clean_email
(line 261). -/
def cleanRow (r : EmpRow) : EmpRow := { r with officialEmail := cleanEmail r.officialEmail }

/-- First key of `sort_values(["Official_Email", "_completeness"],
ascending=[True, False])`: emails ascending with missing values last
(pandas' default na_position). -/
def emailRank (r : EmpRow) : Nat :=
  match r.officialEmail with
  | some _ => 0
  | none => 1

def emailStr (r : EmpRow) : String :=
  match r.officialEmail with
  | some s => s
  | none => ""

/-- The email-pass sort key of deduplicate_employees (line 265):
Official_Email ascending (missing last), then completeness descending. -/
def dedupLeB (a b : EmpRow) : Bool :=
  if emailRank a < emailRank b then true
  else if emailRank b < emailRank a then false
  else if strLtB (emailStr a) (emailStr b) then true
  else if strLtB (emailStr b) (emailStr a) then false
  else if completeness b < completeness a then true
  else if completeness a < completeness b then false
  else true

def dedupLe (a b : EmpRow) : Prop := dedupLeB a b = true

instance : DecidableRel dedupLe := fun a b => inferInstanceAs (Decidable (_ = true))

theorem dedupLeB_iff (a b : EmpRow) : dedupLeB a b = true ↔
    emailRank a < emailRank b
    ∨ (emailRank a = emailRank b
        ∧ (strLtB (emailStr a) (emailStr b) = true
          ∨ (emailStr a = emailStr b
            ∧ (completeness b < completeness a
              ∨ completeness a = completeness b)))) := by
  unfold dedupLeB
  split_ifs with h1 h2 h3 h4 h5 h6
  · simp [h1]
  · constructor
    · intro h; exact h.elim
    · rintro (h | ⟨heq, _⟩)
      · exact absurd h h1
      · omega
  · have heq : emailRank a = emailRank b := by omega
    simp [heq, h3]
  · constructor
    · intro h; exact h.elim
    · rintro (h | ⟨heq, hs | ⟨hse, _⟩⟩)
      · exact absurd h h1
      · exact absurd hs h3
      · rw [← hse, strLt_irrefl] at h4; exact Bool.noConfusion h4
  · have heq : emailRank a = emailRank b := by omega
    have hse := strLt_eq_of_not (by simpa using h3) (by simpa using h4)
    simp [heq, hse, h5]
  · constructor
    · intro h; exact h.elim
    · rintro (h | ⟨heq, hs | ⟨hse, hc | hce⟩⟩)
      · exact absurd h h1
      · exact absurd hs h3
      · exact absurd hc h5
      · omega
  · have heq : emailRank a = emailRank b := by omega
    have hse := strLt_eq_of_not (by simpa using h3) (by simpa using h4)
    have hce : completeness a = completeness b := by omega
    simp [heq, hse, hce]

theorem dedupLe_total (a b : EmpRow) : dedupLe a b ∨ dedupLe b a := by
  unfold dedupLe
  rw [dedupLeB_iff, dedupLeB_iff]
  by_cases h1 : emailRank a < emailRank b
  · exact Or.inl (Or.inl h1)
  · by_cases h2 : emailRank b < emailRank a
    · exact Or.inr (Or.inl h2)
    · have heq : emailRank a = emailRank b := by omega
      by_cases h3 : strLtB (emailStr a) (emailStr b) = true
      · exact Or.inl (Or.inr ⟨heq, Or.inl h3⟩)
      · by_cases h4 : strLtB (emailStr b) (emailStr a) = true
        · exact Or.inr (Or.inr ⟨heq.symm, Or.inl h4⟩)
        · have hse := strLt_eq_of_not (by simpa using h3) (by simpa using h4)
          by_cases h5 : completeness b < completeness a
          · exact Or.inl (Or.inr ⟨heq, Or.inr ⟨hse, Or.inl h5⟩⟩)
          · by_cases h6 : completeness a < completeness b
            · exact Or.inr (Or.inr ⟨heq.symm, Or.inr ⟨hse.symm, Or.inl h6⟩⟩)
            · exact Or.inl (Or.inr ⟨heq, Or.inr ⟨hse, Or.inr (by omega)⟩⟩)

theorem dedupLe_trans {a b c : EmpRow} (h1 : dedupLe a b) (h2 : dedupLe b c) :
    dedupLe a c := by
  unfold dedupLe at h1 h2 ⊢
  rw [dedupLeB_iff] at h1 h2 ⊢
  rcases h1 with hab | ⟨hab, hd1⟩
  · rcases h2 with hbc | ⟨hbc, _⟩
    · exact Or.inl (by omega)
    · exact Or.inl (by omega)
  · rcases h2 with hbc | ⟨hbc, hd2⟩
    · exact Or.inl (by omega)
    · refine Or.inr ⟨by omega, ?_⟩
      rcases hd1 with hs1 | ⟨hse1, hc1⟩
      · rcases hd2 with hs2 | ⟨hse2, _⟩
        · exact Or.inl (strLt_trans hs1 hs2)
        · exact Or.inl (hse2 ▸ hs1)
      · rcases hd2 with hs2 | ⟨hse2, hc2⟩
        · exact Or.inl (hse1 ▸ hs2)
        · refine Or.inr ⟨hse1.trans hse2, ?_⟩
          rcases hc1 with hc1 | hc1 <;> rcases hc2 with hc2 | hc2 <;> omega

instance : IsTotal EmpRow dedupLe := ⟨dedupLe_total⟩

instance : IsTrans EmpRow dedupLe := ⟨fun _ _ _ => dedupLe_trans⟩

/-- Rows whose Official_Email columns hold the same value (a missing value
equal to a missing value, as pandas' duplicated treats NaN) compare in the
sort purely by completeness: the earlier row is at least as complete. -/
theorem dedupLe_same_email {a b : EmpRow} (he : a.officialEmail = b.officialEmail)
    (h : dedupLe a b) : completeness b ≤ completeness a := by
  have hr : emailRank a = emailRank b := by unfold emailRank; rw [he]
  have hs : emailStr a = emailStr b := by unfold emailStr; rw [he]
  rw [dedupLe, dedupLeB_iff] at h
  rcases h with h | ⟨_, hs' | ⟨_, hc | hc⟩⟩
  · omega
  · rw [hs, strLt_irrefl] at hs'; exact Bool.noConfusion hs'
  · omega
  · omega

/-- `drop_duplicates(subset=["Official_Email"], keep="first")` (line 268):
walk the sorted frame keeping the first row of each Official_Email value.
pandas' duplicated treats all missing values as equal, so `none` is one
key value like any other -- the second and later email-less rows are
dropped. -/
def dedupByEmail : List EmpRow → List (Option String) → List EmpRow
  | [], _ => []
  | r :: rs, seen =>
    if r.officialEmail ∈ seen then dedupByEmail rs seen
    else r :: dedupByEmail rs (r.officialEmail :: seen)

/-- The Official_Email pass of deduplicate_employees of
consolidate_employee_data_v2.py (lines 259-272): clean the email column,
sort by (email, completeness descending), and keep the first row per
email value. -/
def deduplicate_employees_email (rows : List EmpRow) : List EmpRow :=
  dedupByEmail ((rows.map cleanRow).insertionSort dedupLe) []

theorem dedup_not_mem_seen : ∀ (l : List EmpRow) (seen : List (Option String))
    (r : EmpRow), r ∈ dedupByEmail l seen → r.officialEmail ∉ seen := by
  intro l
  induction l with
  | nil => intro seen r h; simp [dedupByEmail] at h
  | cons s rest ih =>
    intro seen r h
    by_cases hs : s.officialEmail ∈ seen
    · rw [dedupByEmail, if_pos hs] at h
      exact ih seen r h
    · rw [dedupByEmail, if_neg hs] at h
      rcases List.mem_cons.mp h with rfl | h
      · exact hs
      · intro hc
        exact ih _ r h (List.mem_cons_of_mem _ hc)

theorem dedup_mem : ∀ (l : List EmpRow) (seen : List (Option String)) (r : EmpRow),
    r ∈ dedupByEmail l seen → r ∈ l := by
  intro l
  induction l with
  | nil => intro seen r h; simp [dedupByEmail] at h
  | cons s rest ih =>
    intro seen r h
    by_cases hs : s.officialEmail ∈ seen
    · rw [dedupByEmail, if_pos hs] at h
      exact List.mem_cons_of_mem _ (ih seen r h)
    · rw [dedupByEmail, if_neg hs] at h
      rcases List.mem_cons.mp h with rfl | h
      · exact List.mem_cons_self _ _
      · exact List.mem_cons_of_mem _ (ih _ r h)

theorem dedup_countP : ∀ (l : List EmpRow) (seen : List (Option String))
    (v : Option String),
    (v ∈ seen → (dedupByEmail l seen).countP (fun r => r.officialEmail == v) = 0)
    ∧ (dedupByEmail l seen).countP (fun r => r.officialEmail == v) ≤ 1 := by
  intro l
  induction l with
  | nil => intro seen v; exact ⟨fun _ => rfl, by simp [dedupByEmail]⟩
  | cons s rest ih =>
    intro seen v
    by_cases hs : s.officialEmail ∈ seen
    · rw [dedupByEmail, if_pos hs]
      exact ih seen v
    · rw [dedupByEmail, if_neg hs]
      constructor
      · intro hv
        rw [List.countP_cons]
        have hne : (s.officialEmail == v) = false := by
          refine beq_eq_false_iff_ne.mpr ?_
          intro hc
          exact hs (hc ▸ hv)
        rw [hne]
        simp only [Bool.false_eq_true, if_false, Nat.add_zero]
        exact (ih _ v).1 (List.mem_cons_of_mem _ hv)
      · rw [List.countP_cons]
        by_cases hv : s.officialEmail = v
        · have hz := (ih (s.officialEmail :: seen) v).1 (hv ▸ List.mem_cons_self _ _)
          rw [hz, hv]
          simp
        · have hne : (s.officialEmail == v) = false := beq_eq_false_iff_ne.mpr hv
          rw [hne]
          simp only [Bool.false_eq_true, if_false, Nat.add_zero]
          exact (ih _ v).2

/-- A surviving row dominates its email group: in a frame sorted by the
dedup key, the first-kept row of each email value has the greatest
completeness among the rows carrying that value. -/
theorem dedup_dominates : ∀ (l : List EmpRow) (seen : List (Option String)),
    List.Pairwise dedupLe l →
    ∀ r ∈ dedupByEmail l seen, ∀ r' ∈ l, r'.officialEmail = r.officialEmail →
      r'.officialEmail ∉ seen → completeness r' ≤ completeness r := by
  intro l
  induction l with
  | nil => intro seen _ r h; simp [dedupByEmail] at h
  | cons s rest ih =>
    intro seen hpair r hr r' hr' hee hseen
    have hs_all : ∀ x ∈ rest, dedupLe s x := (List.pairwise_cons.mp hpair).1
    have hrest : List.Pairwise dedupLe rest := (List.pairwise_cons.mp hpair).2
    by_cases hs : s.officialEmail ∈ seen
    · rw [dedupByEmail, if_pos hs] at hr
      rcases List.mem_cons.mp hr' with rfl | hr'
      · exact absurd hs hseen
      · exact ih seen hrest r hr r' hr' hee hseen
    · rw [dedupByEmail, if_neg hs] at hr
      rcases List.mem_cons.mp hr with rfl | hr
      · rcases List.mem_cons.mp hr' with rfl | hr'
        · exact le_refl _
        · exact dedupLe_same_email hee.symm (hs_all r' hr')
      · have hrne : r.officialEmail ∉ (s.officialEmail :: seen) :=
          dedup_not_mem_seen rest _ r hr
        rcases List.mem_cons.mp hr' with rfl | hr'
        · exact absurd (show r.officialEmail ∈ r'.officialEmail :: seen by
            rw [← hee]; exact List.mem_cons_self _ _) hrne
        · refine ih _ hrest r hr r' hr' hee ?_
          intro hc
          rcases List.mem_cons.mp hc with hc1 | hc2
          · exact hrne (hee ▸ hc1 ▸ List.mem_cons_self _ _)
          · exact hseen hc2

/-- The merge-priority score exactly as the specification words it:
1000 times (record status is Active), plus 500 times the configured
source reliability weight, plus the record's count of non-null fields. -/
def specMergePriority (w : String → Nat) (r : EmpRow) : Nat :=
  1000 * (if r.employmentStatus = some "Active" then 1 else 0)
  + 500 * w r.sourceSheet
  + completeness r

/-- C2 counterexample: a cluster of two records sharing the email a@x.com.
The Active live-roster record has 4 non-null fields; the
Resigned/Terminated historical-export record has 10 non-null fields and a
conflicting department.  Under the claimed score (weights: live roster 3,
historical export 1, so the live sheet outranks), the Active record wins
by over a thousand points, yet the code keeps the historical record and
its department, because deduplicate_employees compares completeness
only. -/
theorem merge_priority_score_not_used :
    specMergePriority (fun s => if s = "Active" then 3 else 1)
        ⟨some "a@x.com", some "Engineering", some "Active", "Active", []⟩
      > specMergePriority (fun s => if s = "Active" then 3 else 1)
        ⟨some "a@x.com", some "Sales", some "Resigned/Terminated", "Employees Data",
          [some "f1", some "f2", some "f3", some "f4", some "f5", some "f6"]⟩
    ∧ (deduplicate_employees_email
        [⟨some "a@x.com", some "Engineering", some "Active", "Active", []⟩,
         ⟨some "a@x.com", some "Sales", some "Resigned/Terminated", "Employees Data",
          [some "f1", some "f2", some "f3", some "f4", some "f5", some "f6"]⟩]).map
        (fun r => r.department)
      = [some "Sales"] := by
  exact ⟨by decide, by decide⟩

/-- C2 amended: within one email group the pass keeps one whole record,
the one with the greatest count of non-null fields (no per-field merge, no
Active bonus, no source reliability weight); in the Scenario A instance
the live-roster record with 10 non-null fields survives, so its department
is selected over the 4-field historical record's. -/
theorem email_pass_keeps_most_complete (rows : List EmpRow) (e : String) :
    (deduplicate_employees_email rows).countP (fun r => r.officialEmail == some e) ≤ 1
    ∧ (∀ r ∈ deduplicate_employees_email rows, r.officialEmail = some e →
        r ∈ rows.map cleanRow
        ∧ ∀ r' ∈ rows.map cleanRow, r'.officialEmail = some e →
            completeness r' ≤ completeness r)
    ∧ (deduplicate_employees_email
        [⟨some "a@x.com", some "Engineering", some "Active", "Active",
          [some "f1", some "f2", some "f3", some "f4", some "f5", some "f6"]⟩,
         ⟨some "A@X.com ", some "Operations", some "Resigned/Terminated",
          "Employees Data", []⟩]).map (fun r => r.department)
      = [some "Engineering"] := by
  refine ⟨(dedup_countP _ [] (some e)).2, ?_, by decide⟩
  intro r hr hre
  have hsorted : List.Pairwise dedupLe ((rows.map cleanRow).insertionSort dedupLe) :=
    List.sorted_insertionSort dedupLe (rows.map cleanRow)
  have hmem : r ∈ (rows.map cleanRow).insertionSort dedupLe :=
    dedup_mem _ [] r hr
  refine ⟨(List.mem_insertionSort dedupLe).mp hmem, ?_⟩
  intro r' hr' hre'
  exact dedup_dominates _ [] hsorted r hr r'
    ((List.mem_insertionSort dedupLe).mpr hr') (hre'.trans hre.symm)
    (List.not_mem_nil _)

/-- C5: pandas' drop_duplicates treats every missing Official_Email as the
same key value, so two records that both lack an email are collapsed by
the email pass into a single surviving record -- here two distinct
employees, distinguishable by department, come out as one row.  The code's
own duplicate accounting (line 267) masks with notna() and so counts zero
email duplicates on this input while dropping a row anyway. -/
theorem email_pass_collapses_missing_emails :
    deduplicate_employees_email
        [⟨none, some "Engineering", some "Active", "Active", []⟩,
         ⟨none, some "Sales", some "Active", "Active", []⟩]
      = [⟨none, some "Engineering", some "Active", "Active", []⟩]
    ∧ (deduplicate_employees_email
        [⟨none, some "Engineering", some "Active", "Active", []⟩,
         ⟨none, some "Sales", some "Active", "Active", []⟩]).length = 1 := by
  exact ⟨by decide, by decide⟩

end ConsV2

namespace ConsV4

/-- One raw preview cell as detect_header_row of
consolidate_employee_data_v4_FINAL.py sees it: a string, some other
non-null value (number, date, boolean), or a missing cell (NaN). -/
inductive Cell where
  | str (s : String)
  | num
  | null
deriving DecidableEq

/-- `isinstance(val, str)` (a NaN cell is a float, never a string). -/
def cellIsString : Cell → Bool
  | .str _ => true
  | _ => false

/-- The fixed header keyword set of detect_header_row (lines 151-155). -/
def headerKeywords : List String :=
  ["id", "name", "email", "cnic", "department", "designation",
   "joining", "status", "date", "contact", "phone", "address",
   "manager", "salary", "employee", "slack"]

/-- A string cell whose lowercased text contains some header keyword
(lines 166-170). -/
def cellHasKeyword : Cell → Bool
  | .str s => headerKeywords.any (fun k => containsSubstr (lowerStr s) k)
  | _ => false

/-- The score of one candidate row (lines 163-172):
`string_count + keyword_count * 2`, where string_count counts the cells
that are strings (the notna guard is redundant: NaN is never a string). -/
def rowScore (row : List Cell) : Nat :=
  row.countP cellIsString + 2 * row.countP cellHasKeyword

/-- The scan loop of detect_header_row (lines 157-176): walk the scores,
keeping the index and score of the best row so far, replacing it only on
a strictly greater score (`if score > best_score`), starting from
`best_header_row = 0, best_score = 0`. -/
def bestPair : List Nat → Nat → Nat × Nat → Nat × Nat
  | [], _, acc => acc
  | s :: rest, k, acc =>
    if acc.2 < s then bestPair rest (k + 1) (k, s) else bestPair rest (k + 1) acc

/-- detect_header_row of consolidate_employee_data_v4_FINAL.py
(lines 145-179), on the preview block (`range(min(5, len(df_preview)))`). -/
def detect_header_row (preview : List (List Cell)) : Nat :=
  (bestPair ((preview.take 5).map rowScore) 0 (0, 0)).1

/-- Modelled from the spec's words for comparison: the score the claim
states, counting only non-empty string cells. -/
def specCellNonemptyString : Cell → Bool
  | .str s => s != ""
  | _ => false

/-- Modelled from the spec's words for comparison: the claimed row score,
`count(non-empty string cells) + 2 * count(keyword cells)`. -/
def specRowScore (row : List Cell) : Nat :=
  row.countP specCellNonemptyString + 2 * row.countP cellHasKeyword

theorem bestPair_snd_mono : ∀ (ss : List Nat) (k : Nat) (acc : Nat × Nat),
    acc.2 ≤ (bestPair ss k acc).2 := by
  intro ss
  induction ss with
  | nil => intro k acc; exact le_refl _
  | cons s rest ih =>
    intro k acc
    rw [bestPair]
    by_cases h : acc.2 < s
    · rw [if_pos h]
      exact le_of_lt (lt_of_lt_of_le h (ih (k + 1) (k, s)))
    · rw [if_neg h]
      exact ih (k + 1) acc

theorem bestPair_snd_ge : ∀ (ss : List Nat) (k : Nat) (acc : Nat × Nat) (j : Nat),
    j < ss.length → ss.getD j 0 ≤ (bestPair ss k acc).2 := by
  intro ss
  induction ss with
  | nil => intro k acc j h; simp at h
  | cons s rest ih =>
    intro k acc j hj
    rw [bestPair]
    by_cases h : acc.2 < s
    · rw [if_pos h]
      cases j with
      | zero => exact bestPair_snd_mono rest (k + 1) (k, s)
      | succ j' => exact ih (k + 1) (k, s) j' (by simpa using hj)
    · rw [if_neg h]
      cases j with
      | zero =>
        simp only [List.getD_cons_zero]
        exact le_trans (by omega) (bestPair_snd_mono rest (k + 1) acc)
      | succ j' => exact ih (k + 1) acc j' (by simpa using hj)

theorem bestPair_cases : ∀ (ss : List Nat) (k bi bs : Nat),
    bestPair ss k (bi, bs) = (bi, bs)
    ∨ ∃ j, j < ss.length ∧ (bestPair ss k (bi, bs)).1 = k + j
        ∧ (bestPair ss k (bi, bs)).2 = ss.getD j 0
        ∧ bs < (bestPair ss k (bi, bs)).2 := by
  intro ss
  induction ss with
  | nil => intro k bi bs; exact Or.inl rfl
  | cons s rest ih =>
    intro k bi bs
    rw [bestPair]
    by_cases h : (bi, bs).2 < s
    · rw [if_pos h]
      rcases ih (k + 1) k s with heq | ⟨j', hj', h1, h2, h3⟩
      · refine Or.inr ⟨0, by simp, ?_, ?_, ?_⟩
        · rw [heq]
          rfl
        · rw [heq]
          rfl
        · rw [heq]; exact h
      · refine Or.inr ⟨j' + 1, by simpa using hj', ?_, ?_, ?_⟩
        · rw [h1]; omega
        · rw [h2]; rfl
        · exact lt_trans h h3
    · rw [if_neg h]
      rcases ih (k + 1) bi bs with heq | ⟨j', hj', h1, h2, h3⟩
      · exact Or.inl heq
      · refine Or.inr ⟨j' + 1, by simpa using hj', ?_, ?_, ?_⟩
        · rw [h1]; omega
        · rw [h2]; rfl
        · exact h3

theorem bestPair_before : ∀ (ss : List Nat) (k bi bs : Nat), bi ≤ k →
    ∀ j, j < ss.length → k + j < (bestPair ss k (bi, bs)).1 →
      ss.getD j 0 < (bestPair ss k (bi, bs)).2 := by
  intro ss
  induction ss with
  | nil => intro k bi bs _ j hj; simp at hj
  | cons s rest ih =>
    intro k bi bs hbk j hj hlt
    rw [bestPair] at hlt ⊢
    by_cases h : (bi, bs).2 < s
    · rw [if_pos h] at hlt ⊢
      cases j with
      | zero =>
        rcases bestPair_cases rest (k + 1) k s with heq | ⟨j', _, _, _, h3⟩
        · rw [heq] at hlt; omega
        · simpa using h3
      | succ j' =>
        refine ih (k + 1) k s (by omega) j' (by simpa using hj) ?_
        have harith : k + 1 + j' = k + (j' + 1) := by omega
        rw [harith]
        exact hlt
    · rw [if_neg h] at hlt ⊢
      cases j with
      | zero =>
        rcases bestPair_cases rest (k + 1) bi bs with heq | ⟨j', _, _, _, h3⟩
        · rw [heq] at hlt; simp at hlt; omega
        · simp only [List.getD_cons_zero]
          omega
      | succ j' =>
        refine ih (k + 1) bi bs (by omega) j' (by simpa using hj) ?_
        have harith : k + 1 + j' = k + (j' + 1) := by omega
        rw [harith]
        exact hlt

theorem getD_map_rowScore (l : List (List Cell)) (i : Nat) (h : i < l.length) :
    (l.map rowScore).getD i 0 = rowScore (l.getD i []) := by
  rw [List.getD_eq_getElem _ _ (by simpa using h), List.getD_eq_getElem _ _ h,
    List.getElem_map]

/-- C7 counterexample: a preview whose first row is four empty-string
cells and whose second row is the single header cell "id".  The claimed
score gives the rows 0 and 3 points, so the claimed locator answers
index 1; the code counts every string cell, empty or not, scores the rows
4 and 3, and returns index 0. -/
theorem header_score_counts_empty_strings :
    detect_header_row [[.str "", .str "", .str "", .str ""], [.str "id"]] = 0
    ∧ specRowScore [Cell.str "id"]
        > specRowScore [Cell.str "", Cell.str "", Cell.str "", Cell.str ""] := by
  exact ⟨by decide, by decide⟩

/-- C7 amended: among the first min(5, N) preview rows, detect_header_row
returns the earliest index of maximal code score, where the code score
counts every string cell (empty strings included) plus twice the keyword
cells; on the Scenario C sheet whose first three rows are blank and whose
header sits on row 4, it returns index 3. -/
theorem detect_header_row_spec (preview : List (List Cell)) (i : Nat)
    (h : i < min 5 preview.length) :
    (rowScore ((preview.take 5).getD i [])
        ≤ rowScore ((preview.take 5).getD (detect_header_row preview) [])
      ∧ (rowScore ((preview.take 5).getD (detect_header_row preview) [])
            = rowScore ((preview.take 5).getD i [])
          → detect_header_row preview ≤ i))
    ∧ detect_header_row
        [[Cell.null, Cell.null, Cell.null],
         [Cell.null, Cell.null, Cell.null],
         [Cell.null, Cell.null, Cell.null],
         [Cell.str "Employee ID", Cell.str "Full Name", Cell.str "Official Email"],
         [Cell.str "E1", Cell.num, Cell.str "x@y.z"]] = 3 := by
  have hlen : ((preview.take 5).map rowScore).length = min 5 preview.length := by
    simp
  have hlen5 : (preview.take 5).length = min 5 preview.length := by
    simp
  have hi : i < ((preview.take 5).map rowScore).length := by rw [hlen]; exact h
  have hi5 : i < (preview.take 5).length := by rw [hlen5]; exact h
  have hgi : ((preview.take 5).map rowScore).getD i 0
      = rowScore ((preview.take 5).getD i []) := getD_map_rowScore _ i hi5
  have hd_lt : detect_header_row preview < ((preview.take 5).map rowScore).length := by
    unfold detect_header_row
    rcases bestPair_cases ((preview.take 5).map rowScore) 0 0 0 with heq | ⟨j, hj, h1, _, _⟩
    · rw [heq]
      show (0 : Nat) < ((preview.take 5).map rowScore).length
      omega
    · rw [h1]
      omega
  have hd5 : detect_header_row preview < (preview.take 5).length := by
    rw [hlen5, ← hlen]; exact hd_lt
  have hgd : ((preview.take 5).map rowScore).getD (detect_header_row preview) 0
      = rowScore ((preview.take 5).getD (detect_header_row preview) []) :=
    getD_map_rowScore _ _ hd5
  have hbest : ((preview.take 5).map rowScore).getD (detect_header_row preview) 0
      = (bestPair ((preview.take 5).map rowScore) 0 (0, 0)).2 := by
    unfold detect_header_row
    rcases bestPair_cases ((preview.take 5).map rowScore) 0 0 0 with heq | ⟨j, hj, h1, h2, _⟩
    · rw [heq]
      show ((preview.take 5).map rowScore).getD 0 0 = 0
      have h0 : (0 : Nat) < ((preview.take 5).map rowScore).length := by omega
      have hge := bestPair_snd_ge ((preview.take 5).map rowScore) 0 (0, 0) 0 h0
      rw [heq] at hge
      have hge0 : ((preview.take 5).map rowScore).getD 0 0 ≤ 0 := hge
      omega
    · rw [h1, Nat.zero_add, h2]
  refine ⟨⟨?_, ?_⟩, by decide⟩
  · rw [← hgi, ← hgd, hbest]
    exact bestPair_snd_ge _ 0 (0, 0) i hi
  · intro heqs
    by_contra hgt
    push_neg at hgt
    have hbef := bestPair_before ((preview.take 5).map rowScore) 0 0 0 (le_refl 0) i hi
      (by rw [Nat.zero_add]; exact hgt)
    rw [← hgi, ← hgd, hbest] at heqs
    omega

/-- Instantiation of detect_header_row_spec at a concrete two-row preview
and candidate index 1. -/
theorem detect_header_row_spec_witness :
    (rowScore (([[Cell.str "id"], [Cell.null]].take 5).getD 1 [])
        ≤ rowScore (([[Cell.str "id"], [Cell.null]].take 5).getD
            (detect_header_row [[Cell.str "id"], [Cell.null]]) [])
      ∧ (rowScore (([[Cell.str "id"], [Cell.null]].take 5).getD
            (detect_header_row [[Cell.str "id"], [Cell.null]]) [])
            = rowScore (([[Cell.str "id"], [Cell.null]].take 5).getD 1 [])
          → detect_header_row [[Cell.str "id"], [Cell.null]] ≤ 1))
    ∧ detect_header_row
        [[Cell.null, Cell.null, Cell.null],
         [Cell.null, Cell.null, Cell.null],
         [Cell.null, Cell.null, Cell.null],
         [Cell.str "Employee ID", Cell.str "Full Name", Cell.str "Official Email"],
         [Cell.str "E1", Cell.num, Cell.str "x@y.z"]] = 3 :=
  detect_header_row_spec [[Cell.str "id"], [Cell.null]] 1 (by decide)

/-- One source of merge_all_data: a load that raised (the except branch of
lines 245-252) or the loaded, cleaned row list of one sheet. -/
def keepLoaded {α : Type} : Except Unit (List α) → Option (List α)
  | Except.ok l => if l.isEmpty then none else some l
  | Except.error _ => none

/-- The rows a source contributes: none when its load raised. -/
def sourceRows {α : Type} : Except Unit (List α) → List α
  | Except.ok l => l
  | Except.error _ => []

/-- merge_all_data of consolidate_employee_data_v4_FINAL.py
(lines 237-269): collect every source that loaded with at least one row
(`if df is not None and len(df) > 0`), skip sources whose load raised,
return None when nothing was collected (`if not all_dataframes`), and
otherwise concatenate. -/
def merge_all_data {α : Type} (sources : List (Except Unit (List α))) : Option (List α) :=
  if (sources.filterMap keepLoaded).isEmpty then none
  else some (sources.filterMap keepLoaded).join

theorem join_keepLoaded {α : Type} : ∀ sources : List (Except Unit (List α)),
    (sources.filterMap keepLoaded).join = (sources.map sourceRows).join := by
  intro sources
  induction sources with
  | nil => rfl
  | cons s rest ih =>
    cases s with
    | ok l =>
      by_cases hl : l.isEmpty
      · have hnil : l = [] := List.isEmpty_iff.mp hl
        simp [List.filterMap_cons, keepLoaded, hl, sourceRows, hnil, ih]
      · simp [List.filterMap_cons, keepLoaded, hl, sourceRows, ih]
    | error e => simp [List.filterMap_cons, keepLoaded, sourceRows, ih]

/-- C8 counterexample: one source that opens fine but holds zero rows (for
instance a sheet with only a header row).  The source could be read, yet
merge_all_data returns None and the run produces no consolidated
output. -/
theorem readable_empty_source_still_aborts :
    merge_all_data [Except.ok ([] : List Nat)] = none
    ∧ (Except.ok ([] : List Nat) : Except Unit (List Nat)).isOk = true := by
  exact ⟨rfl, rfl⟩

/-- C8 amended: a source whose load raises is skipped and the run
continues with the remaining sources; merge_all_data aborts (returns no
consolidated output) exactly when no source contributes any rows --
sources that fail to open and sources that load zero rows count alike --
and a produced output is the concatenation of all loaded rows. -/
theorem merge_all_data_spec (α : Type) (sources : List (Except Unit (List α))) :
    (merge_all_data sources = none ↔ ∀ s ∈ sources, sourceRows s = [])
    ∧ (∀ out, merge_all_data sources = some out
        → out = (sources.map sourceRows).join) := by
  unfold merge_all_data
  by_cases hemp : (sources.filterMap keepLoaded).isEmpty
  · rw [if_pos hemp]
    constructor
    · constructor
      · intro _ s hs
        have hnil := List.filterMap_eq_nil.mp (List.isEmpty_iff.mp hemp) s hs
        cases s with
        | ok l =>
          by_cases hl : l.isEmpty
          · simpa [sourceRows] using List.isEmpty_iff.mp hl
          · rw [keepLoaded, if_neg hl] at hnil
            exact absurd hnil (by simp)
        | error e => rfl
      · intro _; rfl
    · intro out hout
      exact absurd hout (by simp)
  · rw [if_neg hemp]
    constructor
    · constructor
      · intro hnone
        exact absurd hnone (by simp)
      · intro hall
        have : sources.filterMap keepLoaded = [] := by
          refine List.filterMap_eq_nil.mpr ?_
          intro s hs
          have := hall s hs
          cases s with
          | ok l =>
            have hl : l = [] := by simpa [sourceRows] using this
            simp [keepLoaded, hl]
          | error e => rfl
        rw [← List.isEmpty_iff] at this
        exact absurd this hemp
    · intro out hout
      have : out = (sources.filterMap keepLoaded).join := by
        exact (Option.some.inj hout).symm
      rw [this, join_keepLoaded]

end ConsV4
